import Mathlib

/-!
# Chunked line scanning of `src/main/gocodebrc/main.go`

A shallow embedding of the Go program: the coordinator loop of `main`
(lines 29-55) and the worker `processFileChunk` (lines 70-100), together
with the parts of the Go standard library the worker relies on
(`os.File` reads and seeks, `bufio.Scanner` with the `ScanLines` split
function).

Conventions.
* A file is the finite list of its bytes; a byte is a natural number.
* `int64` offsets are natural numbers: every offset the program computes
  lies between `0` and the file size, so no overflow can occur, and Go's
  truncating division agrees with division of naturals.
* Opening the file and seeking inside it are taken to succeed (the file
  exists and is a regular file), and a read of a regular file returns as
  many bytes as were asked for, or all that remain.
* The offset that `file.Seek(0, os.SEEK_CUR)` returns is the offset of the
  file itself: `startPos` plus every byte the scanner has read into its
  buffer so far, whether or not it has been handed out as a line.
-/

namespace Brc

/-! ## Bytes and files -/

/-- A byte of the file. -/
abbrev Byte := Nat

/-- The line feed, `'\n'`. -/
def LF : Byte := 10

/-- The carriage return, `'\r'`. -/
def CR : Byte := 13

/-- An open `os.File`: `rest` holds the bytes from the current offset to the
end of the file and `off` is the current offset, the value returned by
`file.Seek(0, os.SEEK_CUR)`. -/
structure File where
  rest : List Byte
  off : Nat
  deriving Repr, DecidableEq

/-- `os.Open(filePath)` followed by `file.Seek(startPos, 0)` (lines 71-78). -/
def File.openAt (data : List Byte) (startPos : Nat) : File :=
  ⟨data.drop startPos, startPos⟩

/-- The errors a scanner can hold in `s.err`. `EOF` is `io.EOF`. -/
inductive ScanErr where
  | EOF
  | ErrTooLong
  | ErrAdvanceTooFar
  deriving Repr, DecidableEq

/-- `file.Read(b)` with `n = len(b)`: the bytes read, the error, and the file
afterwards. A read into a non-empty slice at the end of the file returns no
byte and `io.EOF`. -/
def File.Read (f : File) (n : Nat) : List Byte × Option ScanErr × File :=
  if n ≠ 0 ∧ f.rest = [] then ([], some ScanErr.EOF, f)
  else (f.rest.take n, none, ⟨f.rest.drop n, f.off + (f.rest.take n).length⟩)

/-! ## `bufio.ScanLines` -/

/-- `bytes.IndexByte(data, c)`: the index of the first `c`, `none` for `-1`. -/
def indexByte : List Byte → Byte → Option Nat
  | [], _ => none
  | b :: bs, c => if b = c then some 0 else (indexByte bs c).map (· + 1)

/-- `dropCR` of package `bufio`: drops a terminal `'\r'`. -/
def dropCR (data : List Byte) : List Byte :=
  if data.getLast? = some CR then data.dropLast else data

/-- `bufio.ScanLines(data, atEOF)`: the advance and the token (`none` for a
`nil` token). Its error result is always `nil` and is left out. -/
def ScanLines (data : List Byte) (atEOF : Bool) : Nat × Option (List Byte) :=
  if atEOF ∧ data = [] then (0, none)
  else
    match indexByte data LF with
    | some i => (i + 1, some (dropCR (data.take i)))
    | none => if atEOF then (data.length, some (dropCR data)) else (0, none)

/-! ## `bufio.Scanner` -/

/-- `startBufSize` of package `bufio`. -/
def startBufSize : Nat := 4096

/-- `bufio.MaxScanTokenSize`. -/
def MaxScanTokenSize : Nat := 64 * 1024

/-- The largest `int` of a 64-bit platform. -/
def maxInt : Nat := 2 ^ 63 - 1

/-- The state of a `bufio.Scanner` that matters to `Scan`:
`window` is `s.buf[s.start:s.end]`, `bufLen` is `len(s.buf)`, so that
`s.end = start + window.length`. The split function is `ScanLines`; the
fields `done` and `empties`, which only a split function returning an error
or an empty token at EOF can change, are left out. -/
structure Scanner where
  maxTokenSize : Nat
  bufLen : Nat
  start : Nat
  window : List Byte
  err : Option ScanErr
  deriving Repr, DecidableEq

/-- `bufio.NewScanner(file)`. -/
def NewScanner : Scanner :=
  ⟨MaxScanTokenSize, 0, 0, [], none⟩

/-- `s.setErr(err)`: records the error unless a real error is already held. -/
def Scanner.setErr (s : Scanner) (e : ScanErr) : Scanner :=
  if s.err = none ∨ s.err = some ScanErr.EOF then { s with err := some e } else s

/-- `s.Err()`: the first non-EOF error. -/
def Scanner.Err (s : Scanner) : Option ScanErr :=
  if s.err = some ScanErr.EOF then none else s.err

/-- The shift of `Scan`: data moves to the front of the buffer when the
buffer is full or more than half of it is consumed. -/
def Scanner.shift (s : Scanner) : Scanner :=
  if 0 < s.start ∧ (s.start + s.window.length = s.bufLen ∨ s.bufLen / 2 < s.start) then
    { s with start := 0 }
  else s

/-- The read of `Scan`: one `Read` into `s.buf[s.end:len(s.buf)]`. -/
def Scanner.fill (s : Scanner) (f : File) : Scanner × File :=
  match f.Read (s.bufLen - (s.start + s.window.length)) with
  | (got, e, f1) =>
    let s1 := { s with window := s.window ++ got }
    match e with
    | some x => (s1.setErr x, f1)
    | none => (s1, f1)

/-- The outcome of one turn of the loop of `Scan`: the call returns
(`tok = none` when it returns false), or the loop goes round again. -/
inductive Turn where
  | ret (tok : Option (List Byte)) (s : Scanner) (f : File)
  | again (s : Scanner) (f : File)
  deriving Repr, DecidableEq

/-- The second half of a turn of `Scan`, reached when no token could be
made from the buffer: give up at an error, else shift, grow the buffer when
it is full, and read. -/
def Scanner.readMore (s : Scanner) (f : File) : Turn :=
  if s.err ≠ none then
    Turn.ret none { s with start := 0, window := [] } f
  else
    let s1 := s.shift
    if s1.start + s1.window.length = s1.bufLen then
      if s1.bufLen ≥ s1.maxTokenSize ∨ s1.bufLen > maxInt / 2 then
        Turn.ret none (s1.setErr ScanErr.ErrTooLong) f
      else
        let newSize := if s1.bufLen * 2 = 0 then startBufSize else s1.bufLen * 2
        let s2 := { s1 with bufLen := min newSize s1.maxTokenSize, start := 0 }
        match s2.fill f with
        | (s3, f3) => Turn.again s3 f3
    else
      match s1.fill f with
      | (s3, f3) => Turn.again s3 f3

/-- One turn of the loop of `Scan`: try to split a token off the buffer,
then `readMore`. -/
def Scanner.turn (s : Scanner) (f : File) : Turn :=
  if s.window ≠ [] ∨ s.err ≠ none then
    match ScanLines s.window (decide (s.err ≠ none)) with
    | (advance, token) =>
      if s.window.length < advance then
        Turn.ret none (s.setErr ScanErr.ErrAdvanceTooFar) f
      else
        let s1 := { s with start := s.start + advance, window := s.window.drop advance }
        match token with
        | some t => Turn.ret (some t) s1 f
        | none => s1.readMore f
  else s.readMore f

/-- The loop of `Scan`, one turn for each unit of `fuel`. Returns the token
(`none` when `Scan` returns false), the scanner and the file. -/
def Scanner.scanLoop : Nat → Scanner → File → Option (List Byte) × Scanner × File
  | 0, s, f => (none, s, f)
  | fuel + 1, s, f =>
    match s.turn f with
    | Turn.ret tok s1 f1 => (tok, s1, f1)
    | Turn.again s1 f1 => Scanner.scanLoop fuel s1 f1

/-- `s.Scan()`: every turn of the loop that does not return reads at least
one byte or records the end of the file, so `rest.length + 2` turns are
enough. -/
def Scanner.Scan (s : Scanner) (f : File) : Option (List Byte) × Scanner × File :=
  Scanner.scanLoop (f.rest.length + 2) s f

/-! ## The worker -/

/-- What one call of `processFileChunk` prints: the lines of
`fmt.Println(threadId, line)` and the error of the final
`fmt.Println("Error reading file: ", err)`, if any. -/
structure ChunkOutput where
  records : List (Nat × List Byte)
  readErr : Option ScanErr
  deriving Repr, DecidableEq

/-- The loop `for scanner.Scan() { ... }` of lines 86-95, one turn for each
unit of `fuel`, followed by the check of `scanner.Err()`. -/
def scanChunk (endPos threadId : Nat) : Nat → Scanner → File → ChunkOutput
  | 0, s, _ => ⟨[], s.Err⟩
  | fuel + 1, s, f =>
    match s.Scan f with
    | (none, s1, _) => ⟨[], s1.Err⟩
    | (some line, s1, f1) =>
      if f1.off > endPos then ⟨[], s1.Err⟩
      else
        let out := scanChunk endPos threadId fuel s1 f1
        ⟨(threadId, line) :: out.records, out.readErr⟩

/-- `processFileChunk(filePath, startPos, endPos, threadId)` on a file with
contents `data`. Every successful `Scan` consumes at least one byte, so one
more turn than there are bytes after `startPos` is enough. -/
def processFileChunk (data : List Byte) (startPos endPos threadId : Nat) : ChunkOutput :=
  scanChunk endPos threadId ((data.drop startPos).length + 1) NewScanner
    (File.openAt data startPos)

/-- The line texts a worker emits, in order. -/
def ChunkOutput.lines (o : ChunkOutput) : List (List Byte) :=
  o.records.map Prod.snd

/-! ## The coordinator -/

/-- The worker count of the program (line 12). -/
def numThreads : Nat := 4

/-- A byte range handed to a worker, with the worker's index. -/
structure ChunkRange where
  startPos : Nat
  endPos : Nat
  threadId : Nat
  deriving Repr, DecidableEq

/-- The range computed in turn `i` of the loop of `main` (lines 36-42) for a
worker count `n` (the program has `n = numThreads`) and
`chunkSize = fileSize / n` (line 29). The worker count is at least 1 in
every use: with `n = 0` the division of line 29 would stop the program. -/
def chunkRange (n fileSize i : Nat) : ChunkRange :=
  let chunkSize := fileSize / n
  let startPos := i * chunkSize
  let endPos := if i = n - 1 then fileSize else startPos + chunkSize
  ⟨startPos, endPos, i⟩

/-- The ranges of all turns `i = 0, ..., n - 1` of the loop, in order. -/
def ranges (n fileSize : Nat) : List ChunkRange :=
  (List.range n).map (chunkRange n fileSize)

/-- What the coordinator does with its wait group and goroutines. -/
inductive Action where
  | add
  | launch (r : ChunkRange)
  | wait
  deriving Repr, DecidableEq

/-- The actions of the loop of `main` in program order (lines 35-55): each
turn does `wg.Add(1)`, starts the goroutine, and calls `wg.Wait()`. -/
def coordinatorActions (n fileSize : Nat) : List Action :=
  (ranges n fileSize).flatMap (fun r => [Action.add, Action.launch r, Action.wait])

/-- The outputs of the workers, in the order of their index. The `wg.Wait()`
of each turn returns only when the goroutine of that turn is done, so the
workers run one after the other. -/
def run (n : Nat) (data : List Byte) : List ChunkOutput :=
  (ranges n data.length).map
    (fun r => processFileChunk data r.startPos r.endPos r.threadId)

/-- All line texts emitted in a run, over all workers. -/
def emittedLines (n : Nat) (data : List Byte) : List (List Byte) :=
  (run n data).flatMap ChunkOutput.lines

/-! ## The sequential line scan -/

/-- The loop `for scanner.Scan() { line := scanner.Text(); ... }` without a
cutoff, one turn for each unit of `fuel`. -/
def scanAll : Nat → Scanner → File → List (List Byte)
  | 0, _, _ => []
  | fuel + 1, s, f =>
    match s.Scan f with
    | (none, _, _) => []
    | (some line, s1, f1) => line :: scanAll fuel s1 f1

/-- The sequential scan of `main` (lines 57-63, its loop commented out in the
source): a new scanner over the whole file, every line kept. -/
def sequentialScan (data : List Byte) : List (List Byte) :=
  scanAll (data.length + 1) NewScanner (File.openAt data 0)

/-- The line split of `data` with the offset just past each line: `cur` is
the text of the line being read and `pos` the offset reached. A line ends at
a line feed or at the end of the data; a last line without bytes does not
count. -/
def splitAux : List Byte → List Byte → Nat → List (List Byte × Nat)
  | [], cur, pos => if cur = [] then [] else [(dropCR cur, pos)]
  | b :: bs, cur, pos =>
    if b = LF then (dropCR cur, pos + 1) :: splitAux bs [] (pos + 1)
    else splitAux bs (cur ++ [b]) (pos + 1)

/-- The lines of `data` with the offset just past each of them. -/
def lineSpans (data : List Byte) : List (List Byte × Nat) :=
  splitAux data [] 0

/-- The lines of `data`: the line split of the specification, each line
without its end-of-line marker (a line feed, with a carriage return before
it if there is one). -/
def splitLines (data : List Byte) : List (List Byte) :=
  (lineSpans data).map Prod.fst

/-- Whether no line of `data` has `limit` bytes or more before its line
feed; `cur` counts the bytes of the line being read. -/
def linesFitAux (limit : Nat) : List Byte → Nat → Bool
  | [], cur => decide (cur < limit)
  | b :: bs, cur =>
    if b = LF then decide (cur < limit) && linesFitAux limit bs 0
    else linesFitAux limit bs (cur + 1)

/-- Whether every line of `data` fits the token buffer of a new scanner. -/
def linesFit (data : List Byte) : Bool :=
  linesFitAux MaxScanTokenSize data 0

/-! ## Predicates for the proofs -/

/-- The invariant of a scanner made by `NewScanner` reading a file: the
window lies inside the buffer, the buffer is no longer than the token limit,
and the only error held is the end of the file, reached when nothing is left
to read. -/
structure Inv (s : Scanner) (f : File) : Prop where
  maxTok : s.maxTokenSize = MaxScanTokenSize
  fits : s.start + s.window.length ≤ s.bufLen
  cap : s.bufLen ≤ MaxScanTokenSize
  errs : s.err = none ∨ (s.err = some ScanErr.EOF ∧ f.rest = [])

/-- The number of turns `Scan` may still need: a turn that does not return
reads a byte or meets the end of the file. -/
def turnsLeft (s : Scanner) (f : File) : Nat :=
  f.rest.length + (if s.err = none then 1 else 0)

/-- What a turn of `Scan` from scanner `s` and file `f` may result in. -/
def TurnOK (s : Scanner) (f : File) : Turn → Prop
  | Turn.ret (some t) s1 f1 =>
    ∃ adv, ScanLines (s.window ++ f.rest) true = (adv, some t) ∧
      s1.window ++ f1.rest = (s.window ++ f.rest).drop adv ∧ f1 = f ∧ Inv s1 f1
  | Turn.ret none s1 f1 =>
    f1 = f ∧ ((s1.Err = none ∧ s.window ++ f.rest = []) ∨
      (s1.Err = some ScanErr.ErrTooLong ∧ linesFit (s.window ++ f.rest) = false))
  | Turn.again s1 f1 =>
    Inv s1 f1 ∧ s1.window ++ f1.rest = s.window ++ f.rest ∧
      f1.off + f1.rest.length = f.off + f.rest.length ∧ turnsLeft s1 f1 < turnsLeft s f

/-- What a call of `Scan` from scanner `s` and file `f` may result in: a
token that is the first line of the bytes not yet consumed, or no token
because no byte is left or because the first line is too long. -/
def ScanOK (s : Scanner) (f : File) : Option (List Byte) × Scanner × File → Prop
  | (some t, s1, f1) =>
    ∃ adv, ScanLines (s.window ++ f.rest) true = (adv, some t) ∧
      s1.window ++ f1.rest = (s.window ++ f.rest).drop adv ∧
      f1.off + f1.rest.length = f.off + f.rest.length ∧ Inv s1 f1
  | (none, s1, _) =>
    (s1.Err = none ∧ s.window ++ f.rest = []) ∨
      (s1.Err = some ScanErr.ErrTooLong ∧ linesFit (s.window ++ f.rest) = false)

/-! ## Lemmas on `indexByte`, `ScanLines` and the line split -/

theorem indexByte_none_iff (l : List Byte) (c : Byte) :
    indexByte l c = none ↔ c ∉ l := by
  induction l with
  | nil => simp [indexByte]
  | cons b bs ih =>
    by_cases h : b = c
    · simp [indexByte, h]
    · simp [indexByte, h, ih, Ne.symm h]

theorem indexByte_some_split {l : List Byte} {c : Byte} {i : Nat}
    (h : indexByte l c = some i) :
    l = l.take i ++ c :: l.drop (i + 1) ∧ c ∉ l.take i ∧ i < l.length := by
  induction l generalizing i with
  | nil => simp [indexByte] at h
  | cons b bs ih =>
    by_cases hb : b = c
    · simp [indexByte, hb] at h
      subst h
      simp [hb]
    · simp only [indexByte, hb, if_false] at h
      cases hj : indexByte bs c with
      | none => simp [hj] at h
      | some j =>
      rw [hj] at h
      simp only [Option.map, Option.some.injEq] at h
      subst h
      obtain ⟨h1, h2, h3⟩ := ih hj
      refine ⟨?_, ?_, ?_⟩
      · simp only [List.take_succ_cons, List.drop_succ_cons, List.cons_append]
        rw [← h1]
      · simp only [List.take_succ_cons, List.mem_cons, not_or]
        exact ⟨Ne.symm hb, h2⟩
      · simp only [List.length_cons]
        omega

theorem indexByte_append_some {w : List Byte} {c : Byte} {i : Nat} (r : List Byte)
    (h : indexByte w c = some i) : indexByte (w ++ r) c = some i := by
  induction w generalizing i with
  | nil => simp [indexByte] at h
  | cons b bs ih =>
    by_cases hb : b = c
    · simp [indexByte, hb] at h ⊢
      exact h
    · simp only [indexByte, hb, if_false, List.cons_append] at h ⊢
      cases hj : indexByte bs c with
      | none => simp [hj] at h
      | some j =>
      rw [hj] at h
      simp only [Option.map, Option.some.injEq] at h
      subst h
      show Option.map _ (indexByte (bs ++ r) c) = _
      simp [ih hj]

theorem ScanLines_found {w : List Byte} {i : Nat} (r : List Byte) (b : Bool)
    (h : indexByte w LF = some i) :
    ScanLines (w ++ r) b = (i + 1, some (dropCR (w.take i))) := by
  have hi := (indexByte_some_split h).2.2
  have hne : w ++ r ≠ [] := by
    intro hnil
    have : w = [] := (List.append_eq_nil.mp hnil).1
    subst this
    simp at hi
  simp only [ScanLines, indexByte_append_some r h, hne, and_false, if_false]
  rw [List.take_append_of_le_length (Nat.le_of_lt hi)]

theorem ScanLines_found_self {w : List Byte} {i : Nat} (b : Bool)
    (h : indexByte w LF = some i) :
    ScanLines w b = (i + 1, some (dropCR (w.take i))) := by
  have := ScanLines_found [] b h
  simpa using this

theorem ScanLines_none_false {w : List Byte} (h : indexByte w LF = none) :
    ScanLines w false = (0, none) := by
  simp [ScanLines, h]

theorem ScanLines_none_true {w : List Byte} (h : indexByte w LF = none) (hw : w ≠ []) :
    ScanLines w true = (w.length, some (dropCR w)) := by
  simp [ScanLines, h, hw]

/-- A token of `ScanLines` comes with an advance between one and the length
of the data. -/
theorem ScanLines_some_bounds {w : List Byte} {b : Bool} {adv : Nat} {t : List Byte}
    (h : ScanLines w b = (adv, some t)) : 1 ≤ adv ∧ adv ≤ w.length := by
  unfold ScanLines at h
  split at h
  · simp at h
  · split at h
    · next i hi =>
      have := (indexByte_some_split hi).2.2
      simp only [Prod.mk.injEq] at h
      omega
    · split at h
      · next hn hb =>
        simp only [Prod.mk.injEq] at h
        have hne : w ≠ [] := by
          intro hw
          rename_i hcond _
          apply hcond
          simp [hb, hw]
        have := List.length_pos.mpr hne
        omega
      · simp at h

theorem splitAux_append (cur acc bs : List Byte) (p : Nat) (h : LF ∉ cur) :
    splitAux (cur ++ bs) acc p = splitAux bs (acc ++ cur) (p + cur.length) := by
  induction cur generalizing acc p with
  | nil => simp
  | cons c cs ih =>
    have hc : c ≠ LF := fun e => h (by simp [e])
    have hcs : LF ∉ cs := fun e => h (by simp [e])
    simp only [List.cons_append, splitAux, hc, if_false]
    show splitAux (cs ++ bs) _ _ = _
    rw [ih _ _ hcs]
    simp only [List.append_assoc, List.singleton_append, List.length_cons]
    congr 1
    omega

/-- The line split, one line at a time: `ScanLines` at the end of the input
gives the first line and the number of bytes to drop. -/
theorem splitAux_step {R : List Byte} {adv : Nat} {t : List Byte} (p : Nat)
    (h : ScanLines R true = (adv, some t)) :
    splitAux R [] p = (t, p + adv) :: splitAux (R.drop adv) [] (p + adv) := by
  by_cases hR : R = []
  · subst hR
    simp [ScanLines] at h
  · cases hi : indexByte R LF with
    | some i =>
      rw [ScanLines_found_self true hi] at h
      simp only [Prod.mk.injEq, Option.some.injEq] at h
      obtain ⟨rfl, rfl⟩ := h
      obtain ⟨h1, h2, h3⟩ := indexByte_some_split hi
      conv_lhs => rw [h1, splitAux_append _ _ _ _ h2]
      simp only [splitAux, if_true, List.nil_append, List.length_take, Nat.min_eq_left (Nat.le_of_lt h3)]
      rfl
    | none =>
      rw [ScanLines_none_true hi hR] at h
      simp only [Prod.mk.injEq, Option.some.injEq] at h
      obtain ⟨rfl, rfl⟩ := h
      have hno : LF ∉ R := (indexByte_none_iff R LF).mp hi
      have := splitAux_append R [] [] p hno
      simp only [List.append_nil, List.nil_append] at this
      rw [this]
      simp [splitAux, hR]

theorem linesFitAux_lt {limit : Nat} {r : List Byte} {cur : Nat}
    (h : linesFitAux limit r cur = true) : cur < limit := by
  induction r generalizing cur with
  | nil => simpa [linesFitAux] using h
  | cons b bs ih =>
    by_cases hb : b = LF
    · simp only [linesFitAux, hb, if_true, Bool.and_eq_true, decide_eq_true_eq] at h
      exact h.1
    · simp only [linesFitAux, hb, if_false] at h
      have := ih h
      omega

theorem linesFitAux_append {limit : Nat} (w r : List Byte) (cur : Nat) (hw : LF ∉ w) :
    linesFitAux limit (w ++ r) cur = linesFitAux limit r (cur + w.length) := by
  induction w generalizing cur with
  | nil => simp
  | cons c cs ih =>
    have hc : c ≠ LF := fun e => hw (by simp [e])
    have hcs : LF ∉ cs := fun e => hw (by simp [e])
    simp only [List.cons_append, linesFitAux, hc, if_false, List.length_cons]
    show linesFitAux limit (cs ++ r) _ = _
    rw [ih _ hcs]
    congr 1
    omega

/-- A stretch without a line feed at the front of data whose lines fit is
shorter than the limit. -/
theorem linesFitAux_prefix_lt {limit : Nat} {w r : List Byte}
    (hw : LF ∉ w) (h : linesFitAux limit (w ++ r) 0 = true) : w.length < limit := by
  rw [linesFitAux_append w r 0 hw] at h
  have := linesFitAux_lt h
  omega

/-- Dropping the first line keeps the lines fitting. -/
theorem linesFitAux_drop {limit : Nat} {R : List Byte} {adv : Nat} {t : List Byte}
    (hs : ScanLines R true = (adv, some t)) (h : linesFitAux limit R 0 = true) :
    linesFitAux limit (R.drop adv) 0 = true := by
  by_cases hR : R = []
  · subst hR
    simp [ScanLines] at hs
  · cases hi : indexByte R LF with
    | some i =>
      rw [ScanLines_found_self true hi] at hs
      simp only [Prod.mk.injEq, Option.some.injEq] at hs
      obtain ⟨rfl, -⟩ := hs
      obtain ⟨h1, h2, h3⟩ := indexByte_some_split hi
      rw [h1, linesFitAux_append _ _ _ h2] at h
      simp only [linesFitAux, if_true, Bool.and_eq_true] at h
      exact h.2
    | none =>
      rw [ScanLines_none_true hi hR] at hs
      simp only [Prod.mk.injEq, Option.some.injEq] at hs
      obtain ⟨rfl, -⟩ := hs
      have hlim := linesFitAux_lt h
      simp only [List.drop_length, linesFitAux, decide_eq_true_eq]
      exact hlim

/-! ## The invariant of the scanner and one turn of `Scan` -/

theorem Inv_new (data : List Byte) (startPos : Nat) :
    Inv NewScanner (File.openAt data startPos) :=
  ⟨rfl, by simp [NewScanner], by simp [NewScanner], Or.inl rfl⟩

theorem fill_spec (s : Scanner) (f : File) (herr : s.err = none)
    (hfit : s.start + s.window.length < s.bufLen) (hmax : s.maxTokenSize = MaxScanTokenSize)
    (hcap : s.bufLen ≤ MaxScanTokenSize) :
    Inv (s.fill f).1 (s.fill f).2 ∧
    (s.fill f).1.window ++ (s.fill f).2.rest = s.window ++ f.rest ∧
    (s.fill f).2.off + (s.fill f).2.rest.length = f.off + f.rest.length ∧
    turnsLeft (s.fill f).1 (s.fill f).2 < turnsLeft s f := by
  have hsp : s.bufLen - (s.start + s.window.length) ≠ 0 := by omega
  by_cases hr : f.rest = []
  · have hfill : s.fill f = ({ s with err := some ScanErr.EOF }, f) := by
      simp [Scanner.fill, File.Read, hr, hsp, Scanner.setErr, herr]
    rw [hfill]
    refine ⟨⟨hmax, Nat.le_of_lt hfit, hcap, Or.inr ⟨rfl, hr⟩⟩, rfl, rfl, ?_⟩
    simp [turnsLeft, herr]
  · have hfill : s.fill f =
        ({ s with window := s.window ++ f.rest.take (s.bufLen - (s.start + s.window.length)) },
          ⟨f.rest.drop (s.bufLen - (s.start + s.window.length)),
            f.off + (f.rest.take (s.bufLen - (s.start + s.window.length))).length⟩) := by
      simp [Scanner.fill, File.Read, hr]
    rw [hfill]
    have hpos : 0 < f.rest.length := List.length_pos.mpr hr
    refine ⟨⟨hmax, ?_, hcap, Or.inl herr⟩, ?_, ?_, ?_⟩
    · simp only [List.length_append, List.length_take]
      omega
    · simp only [List.append_assoc, List.take_append_drop]
    · simp only [List.length_take, List.length_drop]
      omega
    · simp only [turnsLeft, herr, if_true, List.length_drop]
      omega

theorem maxTok_le_half : MaxScanTokenSize ≤ maxInt / 2 := by
  decide

theorem linesFit_false_of_long {w r : List Byte} (hw : indexByte w LF = none)
    (hlen : MaxScanTokenSize ≤ w.length) : linesFit (w ++ r) = false := by
  by_contra hc
  have hc1 : linesFitAux MaxScanTokenSize (w ++ r) 0 = true := by
    simpa [linesFit] using hc
  have := linesFitAux_prefix_lt ((indexByte_none_iff w LF).mp hw) hc1
  omega

theorem readMore_ok {s : Scanner} {f : File} (hinv : Inv s f) (herr : s.err = none)
    (hw : indexByte s.window LF = none) : TurnOK s f (s.readMore f) := by
  obtain ⟨hmax, hfit, hcap, -⟩ := hinv
  -- the scanner after the shift
  have hshift : s.shift.maxTokenSize = s.maxTokenSize ∧ s.shift.bufLen = s.bufLen ∧
      s.shift.window = s.window ∧ s.shift.err = s.err ∧ s.shift.start ≤ s.start ∧
      (s.shift.start + s.window.length = s.bufLen → s.shift.start = 0) := by
    unfold Scanner.shift
    split
    · simp
    · next hc =>
      refine ⟨rfl, rfl, rfl, rfl, Nat.le_refl _, ?_⟩
      intro hfull
      by_contra h0
      exact hc ⟨Nat.pos_of_ne_zero h0, Or.inl hfull⟩
  obtain ⟨e1, e2, e3, e4, e5, e6⟩ := hshift
  have herr1 : s.shift.err = none := by rw [e4, herr]
  unfold Scanner.readMore
  simp only [herr, ne_eq, not_true_eq_false, if_false]
  by_cases hfull : s.shift.start + s.shift.window.length = s.shift.bufLen
  · simp only [hfull, if_true]
    have hs0 : s.shift.start = 0 := e6 (by rw [e3, e2] at hfull; exact hfull)
    have hlen : s.window.length = s.bufLen := by
      rw [e3, e2, hs0] at hfull
      omega
    by_cases hbig : s.shift.bufLen ≥ s.shift.maxTokenSize ∨ s.shift.bufLen > maxInt / 2
    · simp only [hbig, if_true]
      have hge : MaxScanTokenSize ≤ s.window.length := by
        rcases hbig with h | h
        · rw [e1, e2, hmax] at h
          omega
        · have := maxTok_le_half
          rw [e2] at h
          omega
      refine ⟨rfl, Or.inr ⟨?_, linesFit_false_of_long hw hge⟩⟩
      simp [Scanner.setErr, Scanner.Err, herr1]
    · simp only [hbig, if_false]
      have hlt : s.bufLen < MaxScanTokenSize := by
        have : ¬ s.shift.bufLen ≥ s.shift.maxTokenSize := fun h => hbig (Or.inl h)
        rw [e1, e2, hmax] at this
        omega
      have key := fill_spec
        { s.shift with
          bufLen := min (if s.shift.bufLen * 2 = 0 then startBufSize else s.shift.bufLen * 2)
            s.shift.maxTokenSize,
          start := 0 } f herr1
        (by
          simp only [e1, e2, e3, hmax, hlen, Nat.zero_add, startBufSize]
          split <;> omega)
        (by simp only [e1, hmax])
        (by
          simp only [e1, hmax]
          exact Nat.min_le_right _ _)
      obtain ⟨k1, k2, k3, k4⟩ := key
      refine ⟨k1, ?_, k3, ?_⟩
      · rw [k2, e3]
      · simpa [turnsLeft, herr1, herr] using k4
  · simp only [hfull, if_false]
    have key := fill_spec s.shift f herr1
      (by
        rw [e3, e2] at hfull ⊢
        omega)
      (by rw [e1, hmax]) (by rw [e2]; exact hcap)
    obtain ⟨k1, k2, k3, k4⟩ := key
    refine ⟨k1, ?_, k3, ?_⟩
    · rw [k2, e3]
    · simpa [turnsLeft, herr1, herr] using k4

theorem ScanLines_true_some {w : List Byte} (hw : w ≠ []) :
    ∃ adv t, ScanLines w true = (adv, some t) := by
  cases hi : indexByte w LF with
  | some i => exact ⟨_, _, ScanLines_found_self true hi⟩
  | none => exact ⟨_, _, ScanLines_none_true hi hw⟩

/-- Every turn of `Scan` from a state with the invariant is as `TurnOK` says. -/
theorem turn_ok {s : Scanner} {f : File} (hinv : Inv s f) : TurnOK s f (s.turn f) := by
  obtain ⟨hmax, hfit, hcap, herrs⟩ := hinv
  rcases herrs with herr | ⟨herr, hrest⟩
  · by_cases hwin : s.window = []
    · have ht : s.turn f = s.readMore f := by
        simp [Scanner.turn, hwin, herr]
      rw [ht]
      exact readMore_ok ⟨hmax, hfit, hcap, Or.inl herr⟩ herr (by simp [hwin, indexByte])
    · cases hi : indexByte s.window LF with
      | some i =>
        have hsl := ScanLines_found_self false hi
        have hb := (indexByte_some_split hi).2.2
        have ht : s.turn f = Turn.ret (some (dropCR (s.window.take i)))
            { s with start := s.start + (i + 1), window := s.window.drop (i + 1) } f := by
          simp only [Scanner.turn, hwin, herr, ne_eq, not_true_eq_false, not_false_eq_true,
            or_false, if_true, decide_False, hsl]
          rw [if_neg (by omega)]
        rw [ht]
        refine ⟨i + 1, ScanLines_found f.rest true hi, ?_, rfl, ⟨hmax, ?_, hcap, Or.inl herr⟩⟩
        · show s.window.drop (i + 1) ++ f.rest = _
          rw [List.drop_append_of_le_length (by omega)]
        · show s.start + (i + 1) + (s.window.drop (i + 1)).length ≤ s.bufLen
          simp only [List.length_drop]
          omega
      | none =>
        have hsl := ScanLines_none_false hi
        have ht : s.turn f = s.readMore f := by
          simp only [Scanner.turn, hwin, herr, ne_eq, not_true_eq_false, not_false_eq_true,
            or_false, if_true, decide_False, hsl, Nat.not_lt_zero, if_false, Nat.add_zero,
            List.drop_zero]
          congr 1
          cases s
          simp only at herr
          simp [herr]
        rw [ht]
        exact readMore_ok ⟨hmax, hfit, hcap, Or.inl herr⟩ herr hi
  · have hne : s.err ≠ none := by simp [herr]
    by_cases hwin : s.window = []
    · have ht : s.turn f = Turn.ret none { s with start := 0, window := [] } f := by
        simp [Scanner.turn, hwin, herr, ScanLines, Scanner.readMore]
      rw [ht]
      refine ⟨rfl, Or.inl ⟨?_, ?_⟩⟩
      · simp [Scanner.Err, herr]
      · simp [hwin, hrest]
    · obtain ⟨adv, t, hsl⟩ := ScanLines_true_some hwin
      have hb := ScanLines_some_bounds hsl
      have ht : s.turn f = Turn.ret (some t)
          { s with start := s.start + adv, window := s.window.drop adv } f := by
        simp only [Scanner.turn, hwin, herr, ne_eq, not_false_eq_true, true_or, if_true,
          decide_True, hsl, reduceCtorEq]
        rw [if_neg (by omega)]
      rw [ht]
      refine ⟨adv, ?_, ?_, rfl, ⟨hmax, ?_, hcap, Or.inr ⟨herr, hrest⟩⟩⟩
      · rw [hrest, List.append_nil]
        exact hsl
      · show s.window.drop adv ++ f.rest = _
        rw [hrest, List.append_nil, List.append_nil]
      · show s.start + adv + (s.window.drop adv).length ≤ s.bufLen
        simp only [List.length_drop]
        omega

/-! ## `Scan` and the loop of the worker -/

theorem ScanOK_transport {s s0 : Scanner} {f f0 : File}
    (hw : s.window ++ f.rest = s0.window ++ f0.rest)
    (ho : f.off + f.rest.length = f0.off + f0.rest.length)
    {r : Option (List Byte) × Scanner × File} (h : ScanOK s f r) : ScanOK s0 f0 r := by
  obtain ⟨tok, s1, f1⟩ := r
  cases tok with
  | none =>
    simp only [ScanOK] at h ⊢
    rw [← hw]
    exact h
  | some t =>
    simp only [ScanOK] at h ⊢
    rw [← hw, ← ho]
    exact h

theorem scanLoop_ok (fuel : Nat) (s : Scanner) (f : File) (hinv : Inv s f)
    (hfuel : turnsLeft s f < fuel) : ScanOK s f (Scanner.scanLoop fuel s f) := by
  induction fuel generalizing s f with
  | zero => omega
  | succ n ih =>
    have hturn := turn_ok hinv
    unfold Scanner.scanLoop
    cases ht : s.turn f with
    | ret tok s1 f1 =>
      rw [ht] at hturn
      cases tok with
      | none =>
        simp only [TurnOK] at hturn
        exact hturn.2
      | some t =>
        simp only [TurnOK] at hturn
        obtain ⟨adv, h1, h2, h3, h4⟩ := hturn
        exact ⟨adv, h1, h2, by rw [h3], h4⟩
    | again s1 f1 =>
      rw [ht] at hturn
      simp only [TurnOK] at hturn
      obtain ⟨h1, h2, h3, h4⟩ := hturn
      exact ScanOK_transport h2 h3 (ih s1 f1 h1 (by omega))

/-- `Scan` has fuel enough: its result is a line or a true end of input. -/
theorem scan_ok {s : Scanner} {f : File} (hinv : Inv s f) : ScanOK s f (s.Scan f) := by
  apply scanLoop_ok _ _ _ hinv
  unfold turnsLeft
  split <;> omega

/-- With fuel above `turnsLeft` the loop of `Scan` gives the same result
whatever the fuel. -/
theorem scanLoop_fuel (fuel fuel2 : Nat) (s : Scanner) (f : File) (hinv : Inv s f)
    (h1 : turnsLeft s f < fuel) (h2 : turnsLeft s f < fuel2) :
    Scanner.scanLoop fuel s f = Scanner.scanLoop fuel2 s f := by
  induction fuel generalizing s f fuel2 with
  | zero => omega
  | succ n ih =>
    cases fuel2 with
    | zero => omega
    | succ m =>
      have hturn := turn_ok hinv
      unfold Scanner.scanLoop
      cases ht : s.turn f with
      | ret tok s1 f1 => rfl
      | again s1 f1 =>
        rw [ht] at hturn
        simp only [TurnOK] at hturn
        obtain ⟨k1, -, -, k4⟩ := hturn
        exact ih m s1 f1 k1 (by omega) (by omega)

/-- The records of a worker are the first `k` lines of the bytes not yet
consumed, each ending at or before `endPos`; when `endPos` is at or past the
end of the file and the lines fit, they are all the lines. Here `p` is the
offset of the first byte not yet consumed. -/
theorem scanChunk_spec (endPos threadId : Nat) (fuel : Nat) (s : Scanner) (f : File)
    (p : Nat) (hinv : Inv s f) (hfuel : (s.window ++ f.rest).length < fuel)
    (hp : p + (s.window ++ f.rest).length = f.off + f.rest.length) :
    ∃ k, (scanChunk endPos threadId fuel s f).records =
        ((splitAux (s.window ++ f.rest) [] p).take k).map (fun x => (threadId, x.1)) ∧
      (∀ x ∈ (splitAux (s.window ++ f.rest) [] p).take k, x.2 ≤ endPos) ∧
      (f.off + f.rest.length ≤ endPos → linesFit (s.window ++ f.rest) = true →
        (splitAux (s.window ++ f.rest) [] p).length ≤ k ∧
        (scanChunk endPos threadId fuel s f).readErr = none) := by
  induction fuel generalizing s f p with
  | zero => omega
  | succ n ih =>
    have hscan := scan_ok hinv
    unfold scanChunk
    rcases hs : s.Scan f with ⟨tok, s1, f1⟩
    rw [hs] at hscan
    cases tok with
    | none =>
      refine ⟨0, by simp, by simp, ?_⟩
      intro _ hfit
      simp only [ScanOK] at hscan
      rcases hscan with ⟨he, hnil⟩ | ⟨-, hbad⟩
      · rw [hnil]
        exact ⟨by simp [splitAux], he⟩
      · rw [hfit] at hbad
        exact absurd hbad (by simp)
    | some t =>
      simp only [ScanOK] at hscan
      obtain ⟨adv, h1, h2, h3, h4⟩ := hscan
      have hb := ScanLines_some_bounds h1
      have hlen : (s1.window ++ f1.rest).length + adv = (s.window ++ f.rest).length := by
        rw [h2, List.length_drop]
        omega
      have hlen1 : f1.rest.length ≤ (s1.window ++ f1.rest).length := by
        simp
      by_cases hcut : f1.off > endPos
      · simp only [hcut, if_true]
        refine ⟨0, by simp, by simp, ?_⟩
        intro hend _
        omega
      · simp only [hcut, if_false]
        obtain ⟨k, k1, k2, k3⟩ := ih s1 f1 (p + adv) h4 (by omega) (by omega)
        refine ⟨k + 1, ?_, ?_, ?_⟩
        · rw [splitAux_step p h1, k1, h2]
          simp
        · rw [splitAux_step p h1]
          intro x hx
          simp only [List.take_succ_cons, List.mem_cons] at hx
          rcases hx with rfl | hx
          · show p + adv ≤ endPos
            omega
          · rw [← h2] at hx
            exact k2 x hx
        · intro hend hfit
          have hfit1 : linesFit (s1.window ++ f1.rest) = true := by
            rw [h2]
            exact linesFitAux_drop h1 hfit
          obtain ⟨k4, k5⟩ := k3 (by omega) hfit1
          rw [splitAux_step p h1]
          refine ⟨?_, k5⟩
          rw [← h2]
          simp only [List.length_cons]
          omega

/-- With more fuel than bytes not yet consumed the loop of the worker gives
the same output whatever the fuel: it never stops for lack of fuel. -/
theorem scanChunk_fuel (endPos threadId : Nat) (fuel fuel2 : Nat) (s : Scanner) (f : File)
    (hinv : Inv s f) (h1 : (s.window ++ f.rest).length < fuel)
    (h2 : (s.window ++ f.rest).length < fuel2) :
    scanChunk endPos threadId fuel s f = scanChunk endPos threadId fuel2 s f := by
  induction fuel generalizing fuel2 s f with
  | zero => omega
  | succ n ih =>
    cases fuel2 with
    | zero => omega
    | succ m =>
      have hscan := scan_ok hinv
      unfold scanChunk
      rcases hs : s.Scan f with ⟨tok, s1, f1⟩
      rw [hs] at hscan
      cases tok with
      | none => rfl
      | some t =>
        simp only [ScanOK] at hscan
        obtain ⟨adv, k1, k2, -, k4⟩ := hscan
        have hb := ScanLines_some_bounds k1
        have hlen : (s1.window ++ f1.rest).length + adv = (s.window ++ f.rest).length := by
          rw [k2, List.length_drop]
          omega
        simp only
        rw [ih m s1 f1 k4 (by omega) (by omega)]

/-- A worker whose `endPos` is at or past the end of the file never takes
the cutoff: it emits what the scan without a cutoff emits. -/
theorem scanChunk_eq_scanAll (endPos threadId : Nat) (fuel : Nat) (s : Scanner) (f : File)
    (hinv : Inv s f) (hend : f.off + f.rest.length ≤ endPos) :
    (scanChunk endPos threadId fuel s f).records.map Prod.snd = scanAll fuel s f := by
  induction fuel generalizing s f with
  | zero => simp [scanChunk, scanAll]
  | succ n ih =>
    have hscan := scan_ok hinv
    unfold scanChunk scanAll
    rcases hs : s.Scan f with ⟨tok, s1, f1⟩
    rw [hs] at hscan
    cases tok with
    | none => simp
    | some t =>
      simp only [ScanOK] at hscan
      obtain ⟨adv, -, -, h3, h4⟩ := hscan
      have hcut : ¬ f1.off > endPos := by omega
      simp only [hcut, if_false, List.map_cons]
      rw [ih s1 f1 h4 (by omega)]

theorem splitAux_offset (R acc : List Byte) (p q : Nat) :
    splitAux R acc (p + q) = (splitAux R acc p).map (fun x => (x.1, x.2 + q)) := by
  induction R generalizing acc p with
  | nil =>
    by_cases h : acc = [] <;> simp [splitAux, h]
  | cons b bs ih =>
    by_cases hb : b = LF
    · simp only [splitAux, hb, if_true, List.map_cons]
      rw [show p + q + 1 = (p + 1) + q by omega, ih]
    · simp only [splitAux, hb, if_false]
      rw [show p + q + 1 = (p + 1) + q by omega, ih]

theorem linesFitAux_mono {limit : Nat} {l : List Byte} {cur cur2 : Nat} (hle : cur2 ≤ cur)
    (h : linesFitAux limit l cur = true) : linesFitAux limit l cur2 = true := by
  induction l generalizing cur cur2 with
  | nil =>
    simp only [linesFitAux, decide_eq_true_eq] at h ⊢
    omega
  | cons b bs ih =>
    by_cases hb : b = LF
    · simp only [linesFitAux, hb, if_true, Bool.and_eq_true, decide_eq_true_eq] at h ⊢
      exact ⟨by omega, h.2⟩
    · simp only [linesFitAux, hb, if_false] at h ⊢
      exact ih (by omega) h

theorem linesFitAux_dropN {limit : Nat} {l : List Byte} {cur : Nat} (n : Nat)
    (h : linesFitAux limit l cur = true) : linesFitAux limit (l.drop n) 0 = true := by
  induction l generalizing cur n with
  | nil =>
    simp only [List.drop_nil, linesFitAux, decide_eq_true_eq] at h ⊢
    omega
  | cons b bs ih =>
    cases n with
    | zero => exact linesFitAux_mono (Nat.zero_le _) h
    | succ m =>
      by_cases hb : b = LF
      · simp only [linesFitAux, hb, if_true, Bool.and_eq_true] at h
        exact ih m h.2
      · simp only [linesFitAux, hb, if_false] at h
        exact ih m h

/-- When the lines of a file fit, so do the lines of what follows any offset. -/
theorem linesFit_drop {data : List Byte} (n : Nat) (h : linesFit data = true) :
    linesFit (data.drop n) = true :=
  linesFitAux_dropN n h

/-- The worker, in terms of the line split of the bytes from `startPos`: its
records are the first `k` lines, each ending at or before `endPos`, and all
the lines when `endPos` is at or past the end of the file and the lines fit. -/
theorem processFileChunk_spec (data : List Byte) (startPos endPos threadId : Nat) :
    ∃ k, (processFileChunk data startPos endPos threadId).records =
        ((lineSpans (data.drop startPos)).take k).map (fun x => (threadId, x.1)) ∧
      (∀ x ∈ (lineSpans (data.drop startPos)).take k, startPos + x.2 ≤ endPos) ∧
      (startPos ≤ endPos → data.length ≤ endPos → linesFit (data.drop startPos) = true →
        (lineSpans (data.drop startPos)).length ≤ k ∧
        (processFileChunk data startPos endPos threadId).readErr = none) := by
  have hinv := Inv_new data startPos
  obtain ⟨k, k1, k2, k3⟩ := scanChunk_spec endPos threadId ((data.drop startPos).length + 1)
    NewScanner (File.openAt data startPos) startPos hinv
    (by simp [NewScanner, File.openAt])
    (by simp [NewScanner, File.openAt])
  have hR : NewScanner.window ++ (File.openAt data startPos).rest = data.drop startPos := by
    simp [NewScanner, File.openAt]
  rw [hR] at k1 k2 k3
  have hoff : splitAux (data.drop startPos) [] startPos =
      (lineSpans (data.drop startPos)).map (fun x => (x.1, x.2 + startPos)) := by
    have := splitAux_offset (data.drop startPos) [] 0 startPos
    rw [Nat.zero_add] at this
    exact this
  rw [hoff] at k1 k2 k3
  refine ⟨k, ?_, ?_, ?_⟩
  · unfold processFileChunk
    rw [k1, ← List.map_take, List.map_map]
    rfl
  · intro x hx
    have := k2 (x.1, x.2 + startPos) (by
      rw [← List.map_take]
      exact List.mem_map_of_mem _ hx)
    simp only at this
    omega
  · intro h1 h2 h3
    have hT : (File.openAt data startPos).off + (File.openAt data startPos).rest.length
        ≤ endPos := by
      simp only [File.openAt, List.length_drop]
      omega
    obtain ⟨k4, k5⟩ := k3 hT h3
    rw [List.length_map] at k4
    exact ⟨k4, k5⟩

/-- The line texts of a worker are a prefix of the line split of the bytes
from `startPos`. -/
theorem lines_prefix_of_split (data : List Byte) (startPos endPos threadId : Nat) :
    (processFileChunk data startPos endPos threadId).lines <+:
      splitLines (data.drop startPos) := by
  obtain ⟨k, k1, -, -⟩ := processFileChunk_spec data startPos endPos threadId
  unfold ChunkOutput.lines splitLines
  rw [k1, List.map_map, List.map_take]
  exact List.take_prefix _ _

/-- A worker whose range ends at or past the end of the file emits every line
of the bytes from `startPos`, when those lines fit. -/
theorem lines_full (data : List Byte) (startPos endPos threadId : Nat)
    (h1 : startPos ≤ endPos) (h2 : data.length ≤ endPos)
    (h3 : linesFit (data.drop startPos) = true) :
    (processFileChunk data startPos endPos threadId).lines = splitLines (data.drop startPos) ∧
      (processFileChunk data startPos endPos threadId).readErr = none := by
  obtain ⟨k, k1, -, k3⟩ := processFileChunk_spec data startPos endPos threadId
  obtain ⟨k4, k5⟩ := k3 h1 h2 h3
  refine ⟨?_, k5⟩
  unfold ChunkOutput.lines splitLines
  rw [k1, List.map_map, List.take_of_length_le k4]
  rfl

/-- A worker over the whole file emits what the sequential scan emits. -/
theorem whole_file_eq_sequential (data : List Byte) (endPos threadId : Nat)
    (h : data.length ≤ endPos) :
    (processFileChunk data 0 endPos threadId).lines = sequentialScan data := by
  unfold ChunkOutput.lines processFileChunk sequentialScan
  have := scanChunk_eq_scanAll endPos threadId ((data.drop 0).length + 1) NewScanner
    (File.openAt data 0) (Inv_new data 0) (by simpa [File.openAt] using h)
  rw [this]
  simp

/-- A worker on an empty file prints nothing. -/
theorem processFileChunk_empty (startPos endPos threadId : Nat) :
    processFileChunk [] startPos endPos threadId = ⟨[], none⟩ := by
  simp [processFileChunk, File.openAt, scanChunk, Scanner.Scan, Scanner.scanLoop,
    Scanner.turn, Scanner.readMore, Scanner.shift, Scanner.fill, File.Read, Scanner.setErr,
    Scanner.Err, NewScanner, ScanLines, startBufSize, MaxScanTokenSize, maxInt]

/-- The first line of the split is the text up to the first line feed. -/
theorem splitAux_head (R acc : List Byte) (p : Nat) :
    (splitAux R acc p).head?.map Prod.fst =
      if acc ++ R = [] then none
      else some (dropCR (acc ++ R.takeWhile (fun b => decide (b ≠ LF)))) := by
  induction R generalizing acc p with
  | nil =>
    by_cases h : acc = [] <;> simp [splitAux, h]
  | cons b bs ih =>
    by_cases hb : b = LF
    · simp [splitAux, hb]
    · simp only [splitAux, hb, if_false]
      rw [ih]
      simp [hb]

/-! ## The ranges of the coordinator -/

theorem ranges_length (n fileSize : Nat) : (ranges n fileSize).length = n := by
  simp [ranges]

theorem ranges_getElem? {n fileSize i : Nat} {r : ChunkRange}
    (h : (ranges n fileSize)[i]? = some r) : i < n ∧ r = chunkRange n fileSize i := by
  unfold ranges at h
  rw [List.getElem?_map] at h
  by_cases hi : i < n
  · rw [List.getElem?_range hi] at h
    simp only [Option.map_some', Option.some.injEq] at h
    exact ⟨hi, h.symm⟩
  · have : (List.range n)[i]? = none := by
      apply List.getElem?_eq_none
      simp only [List.length_range]
      omega
    rw [this] at h
    simp at h

theorem ranges_getElem?_of_lt {n i : Nat} (fileSize : Nat) (hi : i < n) :
    (ranges n fileSize)[i]? = some (chunkRange n fileSize i) := by
  unfold ranges
  rw [List.getElem?_map, List.getElem?_range hi]
  rfl

theorem chunk_mul_le (m fileSize : Nat) : m * (fileSize / (m + 1)) ≤ fileSize := by
  refine le_trans (Nat.mul_le_mul_right _ (Nat.le_succ m)) ?_
  rw [Nat.mul_comm]
  exact Nat.div_mul_le_self fileSize (m + 1)

theorem lengths_sum (m fileSize : Nat) :
    ((ranges (m + 1) fileSize).map (fun r => r.endPos - r.startPos)).sum = fileSize := by
  unfold ranges
  rw [List.range_succ, List.map_append, List.map_append, List.sum_append, List.map_map]
  have hconst : ∀ i ∈ List.range m,
      ((fun r : ChunkRange => r.endPos - r.startPos) ∘ chunkRange (m + 1) fileSize) i
        = fileSize / (m + 1) := by
    intro i hi
    have hi2 : i < m := List.mem_range.mp hi
    have hne : ¬ i = m := by omega
    simp [chunkRange, hne]
  rw [List.map_congr_left hconst]
  have hlast : (chunkRange (m + 1) fileSize m).endPos - (chunkRange (m + 1) fileSize m).startPos
      = fileSize - m * (fileSize / (m + 1)) := by
    simp [chunkRange]
  simp only [List.map_cons, List.map_nil, List.sum_cons, List.sum_nil, hlast, List.map_const',
    List.length_range, List.sum_replicate, smul_eq_mul, Nat.add_zero]
  have := chunk_mul_le m fileSize
  omega

theorem emittedLines_one (data : List Byte) :
    emittedLines 1 data = (processFileChunk data 0 data.length 0).lines := by
  simp [emittedLines, run, ranges, chunkRange, List.range_succ]

theorem last_range {n fileSize : Nat} {r : ChunkRange}
    (h : (ranges n fileSize).getLast? = some r) :
    r.startPos ≤ r.endPos ∧ r.endPos = fileSize := by
  rw [List.getLast?_eq_getElem?, ranges_length] at h
  obtain ⟨hi, rfl⟩ := ranges_getElem? h
  cases n with
  | zero => omega
  | succ m =>
    simp only [chunkRange, Nat.add_sub_cancel, if_true]
    exact ⟨chunk_mul_le m fileSize, trivial⟩

/-! ## The claims -/

/-- C1, counterexample: coverage fails for the four workers of the program.
On the one-line file `abcdefg\n` the first three workers emit nothing and the
last emits `g`, the tail of the line, while the sequential scan gives the
line `abcdefg`. -/
theorem coverage_counterexample :
    emittedLines numThreads [97, 98, 99, 100, 101, 102, 103, 10] = [[103]] ∧
    sequentialScan [97, 98, 99, 100, 101, 102, 103, 10] = [[97, 98, 99, 100, 101, 102, 103]] ∧
    splitLines [97, 98, 99, 100, 101, 102, 103, 10] = [[97, 98, 99, 100, 101, 102, 103]] ∧
    ¬ List.Perm (emittedLines numThreads [97, 98, 99, 100, 101, 102, 103, 10])
      (sequentialScan [97, 98, 99, 100, 101, 102, 103, 10]) := by
  refine ⟨by decide, by decide, by decide, ?_⟩
  decide

/-- C1, amended: with one worker the lines emitted are those of the
sequential scan, and those of the line split when the lines fit the token
buffer; with any number of workers each worker emits a prefix of the line
split of the bytes from its own `startPos`, and the last worker emits all of
that split when the lines fit. -/
theorem coverage_amended (data : List Byte) (n : Nat) :
    List.Perm (emittedLines 1 data) (sequentialScan data) ∧
    (linesFit data = true → List.Perm (emittedLines 1 data) (splitLines data)) ∧
    (∀ (i : Nat) (r : ChunkRange), (ranges n data.length)[i]? = some r →
      (processFileChunk data r.startPos r.endPos r.threadId).lines <+:
        splitLines (data.drop r.startPos)) ∧
    (linesFit data = true → ∀ r : ChunkRange, (ranges n data.length).getLast? = some r →
      (processFileChunk data r.startPos r.endPos r.threadId).lines =
        splitLines (data.drop r.startPos)) := by
  refine ⟨?_, ?_, ?_, ?_⟩
  · rw [emittedLines_one, whole_file_eq_sequential data data.length 0 (Nat.le_refl _)]
  · intro hfit
    rw [emittedLines_one]
    have := (lines_full data 0 data.length 0 (Nat.zero_le _) (Nat.le_refl _)
      (by simpa using hfit)).1
    rw [this]
    simp
  · intro i r _
    exact lines_prefix_of_split data r.startPos r.endPos r.threadId
  · intro hfit r hr
    obtain ⟨h1, h2⟩ := last_range hr
    exact (lines_full data r.startPos r.endPos r.threadId h1 (by omega)
      (linesFit_drop _ hfit)).1

/-- C1, witness of the amended claim on the file `a\nb\nc\nd\n`. -/
theorem coverage_amended_witness :
    linesFit [97, 10, 98, 10, 99, 10, 100, 10] = true ∧
    List.Perm (emittedLines 1 [97, 10, 98, 10, 99, 10, 100, 10])
      (splitLines [97, 10, 98, 10, 99, 10, 100, 10]) :=
  ⟨by decide, (coverage_amended [97, 10, 98, 10, 99, 10, 100, 10] 4).2.1 (by decide)⟩

/-- C2: for every worker count of at least one and every file size, the
ranges of the loop of `main` start at 0, each range ends where the next one
starts, and the last range ends at the file size. -/
theorem partition_chaining (n fileSize : Nat) (hn : 1 ≤ n) :
    (ranges n fileSize).head?.map ChunkRange.startPos = some 0 ∧
    (∀ (i : Nat) (r r2 : ChunkRange), (ranges n fileSize)[i]? = some r →
      (ranges n fileSize)[i + 1]? = some r2 →
      r.endPos = r2.startPos) ∧
    (ranges n fileSize).getLast?.map ChunkRange.endPos = some fileSize := by
  refine ⟨?_, ?_, ?_⟩
  · rw [List.head?_eq_getElem?, ranges_getElem?_of_lt fileSize (by omega : 0 < n)]
    simp [chunkRange]
  · intro i r r2 h1 h2
    obtain ⟨-, rfl⟩ := ranges_getElem? h1
    obtain ⟨hi, rfl⟩ := ranges_getElem? h2
    have hne : ¬ i = n - 1 := by omega
    simp only [chunkRange, hne, if_false]
    rw [Nat.succ_mul]
  · rw [List.getLast?_eq_getElem?, ranges_length,
      ranges_getElem?_of_lt fileSize (by omega : n - 1 < n)]
    simp [chunkRange]

/-- C2, witness: the four workers of the program on a file of 10 bytes. -/
theorem partition_chaining_witness :
    (ranges 4 10).head?.map ChunkRange.startPos = some 0 ∧
    (∀ (i : Nat) (r r2 : ChunkRange), (ranges 4 10)[i]? = some r →
      (ranges 4 10)[i + 1]? = some r2 →
      r.endPos = r2.startPos) ∧
    (ranges 4 10).getLast?.map ChunkRange.endPos = some 10 :=
  partition_chaining 4 10 (by decide)

/-- C3: with `chunkSize = fileSize / n`, every worker but the last gets
`[i * chunkSize, i * chunkSize + chunkSize)`, the last gets
`[(n - 1) * chunkSize, fileSize)`, of length `chunkSize + fileSize % n`, and
the lengths of the ranges add up to `fileSize`; 10 bytes over 3 workers give
`[0,3)`, `[3,6)`, `[6,10)`. -/
theorem partition_formula (n fileSize : Nat) (hn : 1 ≤ n) :
    (∀ i, i < n - 1 → (ranges n fileSize)[i]? =
      some ⟨i * (fileSize / n), i * (fileSize / n) + fileSize / n, i⟩) ∧
    (ranges n fileSize)[n - 1]? = some ⟨(n - 1) * (fileSize / n), fileSize, n - 1⟩ ∧
    fileSize - (n - 1) * (fileSize / n) = fileSize / n + fileSize % n ∧
    ((ranges n fileSize).map (fun r => r.endPos - r.startPos)).sum = fileSize ∧
    ranges 3 10 = [⟨0, 3, 0⟩, ⟨3, 6, 1⟩, ⟨6, 10, 2⟩] := by
  obtain ⟨m, rfl⟩ : ∃ m, n = m + 1 := ⟨n - 1, by omega⟩
  refine ⟨?_, ?_, ?_, lengths_sum m fileSize, by decide⟩
  · intro i hi
    rw [ranges_getElem?_of_lt fileSize (by omega : i < m + 1)]
    have hne : ¬ i = m := by omega
    simp [chunkRange, hne]
  · rw [ranges_getElem?_of_lt fileSize (by omega : m + 1 - 1 < m + 1)]
    simp [chunkRange]
  · have h1 := Nat.div_add_mod fileSize (m + 1)
    rw [Nat.succ_mul] at h1
    simp only [Nat.add_sub_cancel]
    generalize fileSize / (m + 1) = c at h1 ⊢
    generalize fileSize % (m + 1) = q at h1 ⊢
    generalize m * c = t at h1 ⊢
    omega

/-- C3, witness: 10 bytes over 3 workers. -/
theorem partition_formula_witness :
    (ranges 3 10)[2]? = some ⟨6, 10, 2⟩ ∧ 10 - 2 * (10 / 3) = 10 / 3 + 10 % 3 ∧
    ((ranges 3 10).map (fun r => r.endPos - r.startPos)).sum = 10 :=
  ⟨(partition_formula 3 10 (by decide)).2.1, (partition_formula 3 10 (by decide)).2.2.1,
    (partition_formula 3 10 (by decide)).2.2.2.1⟩

/-- C4: a single worker given the whole-file range `[0, fileSize)` emits
exactly the lines of the sequential scan of the file, same texts, same
order; when the lines fit the token buffer these are the lines of the line
split, and no read error is reported. -/
theorem single_worker_whole_file (data : List Byte) (threadId : Nat) :
    (processFileChunk data 0 data.length threadId).lines = sequentialScan data ∧
    (linesFit data = true →
      (processFileChunk data 0 data.length threadId).lines = splitLines data ∧
      (processFileChunk data 0 data.length threadId).readErr = none) := by
  refine ⟨whole_file_eq_sequential data data.length threadId (Nat.le_refl _), ?_⟩
  intro hfit
  have := lines_full data 0 data.length threadId (Nat.zero_le _) (Nat.le_refl _)
    (by simpa using hfit)
  simpa using this

/-- C4, witness: the file `a\nb\r\nc`, without a line feed at the end. -/
theorem single_worker_whole_file_witness :
    linesFit [97, 10, 98, 13, 10, 99] = true ∧
    (processFileChunk [97, 10, 98, 13, 10, 99] 0 6 0).lines = [[97], [98], [99]] ∧
    (processFileChunk [97, 10, 98, 13, 10, 99] 0 6 0).lines =
      splitLines [97, 10, 98, 13, 10, 99] :=
  ⟨by decide, by decide,
    ((single_worker_whole_file [97, 10, 98, 13, 10, 99] 0).2 (by decide)).1⟩

/-- C5: on an empty file the run emits no record at all, every worker
launched emits nothing, and no worker reports an error, whatever the worker
count. -/
theorem empty_file_no_records (n : Nat) :
    emittedLines n [] = [] ∧
    (∀ o ∈ run n [], o.records = [] ∧ o.readErr = none) ∧
    run numThreads [] = List.replicate 4 ⟨[], none⟩ := by
  have hrun : ∀ m, run m [] = (ranges m 0).map (fun _ => (⟨[], none⟩ : ChunkOutput)) := by
    intro m
    simp [run, processFileChunk_empty]
  refine ⟨?_, ?_, by decide⟩
  · simp [emittedLines, hrun, ChunkOutput.lines]
  · intro o ho
    rw [hrun] at ho
    simp only [List.mem_map] at ho
    obtain ⟨_, _, rfl⟩ := ho
    exact ⟨rfl, rfl⟩

/-- C6, counterexample: on an empty file the loop of `main` still computes
four ranges, so the sequence of ranges is not empty. -/
theorem empty_partition_counterexample :
    ranges numThreads 0 = [⟨0, 0, 0⟩, ⟨0, 0, 1⟩, ⟨0, 0, 2⟩, ⟨0, 0, 3⟩] ∧
    ranges numThreads 0 ≠ [] := by
  decide

/-- C6, amended: on an empty file the loop still computes one range for each
worker, every one of them the empty range `[0, 0)`, and launches a worker on
each of them. -/
theorem empty_file_ranges (n : Nat) :
    ranges n 0 = (List.range n).map (fun i => ⟨0, 0, i⟩) ∧
    (ranges n 0).length = n ∧
    coordinatorActions n 0 =
      (List.range n).flatMap (fun i => [Action.add, Action.launch ⟨0, 0, i⟩, Action.wait]) := by
  have h : ranges n 0 = (List.range n).map (fun i => (⟨0, 0, i⟩ : ChunkRange)) := by
    unfold ranges
    apply List.map_congr_left
    intro i _
    simp [chunkRange]
  refine ⟨h, ranges_length n 0, ?_⟩
  unfold coordinatorActions
  rw [h]
  simp [List.flatMap, List.map_map, Function.comp_def]

/-- C7, code at the failing input: for every file size the actions of the
loop of `main` with its four workers alternate launch and wait, so the
coordinator waits on worker 0 before it launches worker 1, and so on. -/
theorem join_inside_fanout_loop (fileSize : Nat) :
    coordinatorActions numThreads fileSize =
      [Action.add, Action.launch (chunkRange 4 fileSize 0), Action.wait,
       Action.add, Action.launch (chunkRange 4 fileSize 1), Action.wait,
       Action.add, Action.launch (chunkRange 4 fileSize 2), Action.wait,
       Action.add, Action.launch (chunkRange 4 fileSize 3), Action.wait] := by
  rfl

/-- C8, counterexample: on the file `ab\ncd\n` a worker with `startPos = 1`
and `endPos = 6` emits `b` first, the tail of the line `ab` that began at
offset 0; its lines are not taken from the bytes that follow the next line
feed. -/
theorem boundary_skip_counterexample :
    (processFileChunk [97, 98, 10, 99, 100, 10] 1 6 1).lines = [[98], [99, 100]] ∧
    splitLines (((List.drop 1 [97, 98, 10, 99, 100, 10]).dropWhile
      (fun b => decide (b ≠ LF))).drop 1) = [[99, 100]] ∧
    ¬ ((1 : Nat) ≠ 0 → (processFileChunk [97, 98, 10, 99, 100, 10] 1 6 1).lines <+:
      splitLines (((List.drop 1 [97, 98, 10, 99, 100, 10]).dropWhile
        (fun b => decide (b ≠ LF))).drop 1)) := by
  refine ⟨by decide, by decide, ?_⟩
  decide

/-- C8, amended: the worker discards nothing after the seek: for every file
and every `startPos`, zero or not, the first record it emits, if it emits
one, is the text that starts at byte `startPos` and runs up to the next line
feed or the end of the file, less a carriage return at its end. -/
theorem first_record_starts_at_startPos (data : List Byte) (startPos endPos threadId : Nat)
    (rec : Nat × List Byte)
    (h : (processFileChunk data startPos endPos threadId).records.head? = some rec) :
    rec = (threadId,
      dropCR ((data.drop startPos).takeWhile (fun b => decide (b ≠ LF)))) := by
  obtain ⟨k, k1, -, -⟩ := processFileChunk_spec data startPos endPos threadId
  rw [k1] at h
  have hh := splitAux_head (data.drop startPos) [] 0
  cases k with
  | zero => simp at h
  | succ k =>
    unfold lineSpans at h
    cases hsp : splitAux (data.drop startPos) [] 0 with
    | nil => simp [hsp] at h
    | cons x xs =>
      rw [hsp] at h hh
      simp only [List.take_succ_cons, List.map_cons, List.head?_cons, Option.some.injEq] at h
      simp only [List.head?_cons, Option.map_some', List.nil_append] at hh
      split at hh
      · simp at hh
      · simp only [Option.some.injEq] at hh
        rw [← h, hh]

/-- C8, witness: the worker of the counterexample. -/
theorem first_record_starts_at_startPos_witness :
    (processFileChunk [97, 98, 10, 99, 100, 10] 1 6 1).records.head? = some (1, [98]) ∧
    ((1, [98]) : Nat × List Byte) = (1,
      dropCR ((List.drop 1 [97, 98, 10, 99, 100, 10]).takeWhile (fun b => decide (b ≠ LF)))) :=
  ⟨by decide,
    first_record_starts_at_startPos [97, 98, 10, 99, 100, 10] 1 6 1 (1, [98]) (by decide)⟩

/-- C9, counterexample: on the file `ab\n` a worker with the range `[0, 1)`
reads the line `ab`, which starts before `endPos = 1` and ends at offset 3,
and emits nothing. -/
theorem boundary_extend_counterexample :
    lineSpans [97, 98, 10] = [([97, 98], 3)] ∧
    (processFileChunk [97, 98, 10] 0 1 0).records = [] ∧
    ¬ ((0 : Nat) < 1 → ∀ l : List Byte, (splitLines [97, 98, 10]).head? = some l →
      l ∈ (processFileChunk [97, 98, 10] 0 1 0).lines) := by
  refine ⟨by decide, by decide, ?_⟩
  intro h
  have := h (by decide) [97, 98] (by decide)
  revert this
  decide

/-- C9, amended: the worker tests the file offset after every scan and stops
without emitting once it is past `endPos`; the lines it emits are the first
lines of the bytes from `startPos`, each emitted in full, and each of them
ends, its line feed included, at or before `endPos`. A line that ends after
`endPos` is not emitted. -/
theorem emitted_lines_end_by_endPos (data : List Byte) (startPos endPos threadId : Nat) :
    ∃ k, (processFileChunk data startPos endPos threadId).records =
        ((lineSpans (data.drop startPos)).take k).map (fun x => (threadId, x.1)) ∧
      ∀ x ∈ (lineSpans (data.drop startPos)).take k, startPos + x.2 ≤ endPos := by
  obtain ⟨k, k1, k2, -⟩ := processFileChunk_spec data startPos endPos threadId
  exact ⟨k, k1, k2⟩

/-- C10: for `startPos ≤ endPos` and a file whose lines fit the token
buffer, the line texts a worker emits are a prefix, in order, of the line
split of the bytes from `startPos` to the end of the file, and all of that
split when `endPos` is the file size. The bound `endPos ≤ fileSize` of the
claim is not needed. -/
theorem worker_emits_prefix_of_split (data : List Byte) (startPos endPos threadId : Nat)
    (h1 : startPos ≤ endPos) (h3 : linesFit data = true) :
    (processFileChunk data startPos endPos threadId).lines <+:
      splitLines (data.drop startPos) ∧
    (endPos = data.length →
      (processFileChunk data startPos endPos threadId).lines =
        splitLines (data.drop startPos)) := by
  refine ⟨lines_prefix_of_split data startPos endPos threadId, ?_⟩
  intro he
  exact (lines_full data startPos endPos threadId h1 (by omega) (linesFit_drop _ h3)).1

/-- C10, witness: the file `ab\ncd\n` from offset 1 to its end. -/
theorem worker_emits_prefix_of_split_witness :
    linesFit [97, 98, 10, 99, 100, 10] = true ∧
    (processFileChunk [97, 98, 10, 99, 100, 10] 1 6 1).lines <+:
      splitLines (List.drop 1 [97, 98, 10, 99, 100, 10]) ∧
    (processFileChunk [97, 98, 10, 99, 100, 10] 1 6 1).lines =
      splitLines (List.drop 1 [97, 98, 10, 99, 100, 10]) :=
  ⟨by decide,
    (worker_emits_prefix_of_split [97, 98, 10, 99, 100, 10] 1 6 1 (by decide)
      (by decide)).1,
    (worker_emits_prefix_of_split [97, 98, 10, 99, 100, 10] 1 6 1 (by decide)
      (by decide)).2 rfl⟩

end Brc
